import Mathlib

/-!
Verification development for the storage-engine core of the bustub repository:
LRU-K replacer (`src/buffer/lru_k_replacer.cpp`), buffer pool manager
(`src/buffer/buffer_pool_manager_instance.cpp`), extendible hash table
(`src/container/hash/extendible_hash_table.cpp`) and B+-tree
(`src/storage/index/b_plus_tree.cpp`, `src/storage/page/...`, `src/storage/index/index_iterator.cpp`).

Each C++ component is given a shallow embedding: member functions become Lean
functions on explicit state records.  Machine integers are modelled as `Nat`
or `Int` (the quantities involved never overflow 32 bits in the scenarios
considered), `std::list`/`std::vector` as `List`, raw arrays as total
functions `Nat → _` over zero-initialised backing storage, and the
`unordered_map` of the replacer as an association list (its iteration order is
unspecified in C++; the theorems proved about it are order-independent).
-/

namespace BusTub

/-! ## LRU-K replacer (`src/buffer/lru_k_replacer.cpp`)

Per-frame state is a FIFO of the most recent (up to `k`) access timestamps —
`time_` in the source, pushed at the back and popped at the front — together
with the `evictable_` flag.  `hash_` is the per-frame record table. -/

structure FrameRec where
  time : List Nat
  evictable : Bool
deriving Repr, DecidableEq

structure LRUK where
  numFrames : Nat
  k : Nat
  hash : List (Nat × FrameRec)
  currSize : Nat
  clock : Nat
deriving Repr, DecidableEq

/-- Constructor `LRUKReplacer(num_frames, k)`: empty table, zero size, clock at zero. -/
def LRUK.init (n k : Nat) : LRUK := ⟨n, k, [], 0, 0⟩

/-- Lookup of `hash_[f]` as a read (`hash_.count` / read access). -/
def recOf : List (Nat × FrameRec) → Nat → Option FrameRec
  | [], _ => none
  | (g, r) :: t, f => if g = f then some r else recOf t f

/-- Write `hash_[f] = r`, creating the entry when absent (appended at the end;
the position of a new `unordered_map` entry is unobservable here). -/
def setRec : List (Nat × FrameRec) → Nat → FrameRec → List (Nat × FrameRec)
  | [], f, r => [(f, r)]
  | (g, q) :: t, f, r => if g = f then (f, r) :: t else (g, q) :: setRec t f r

/-- Erasure `hash_.erase(f)`. -/
def eraseRec : List (Nat × FrameRec) → Nat → List (Nat × FrameRec)
  | [], _ => []
  | (g, q) :: t, f => if g = f then t else (g, q) :: eraseRec t f

/-- Method `LRUKReplacer::RecordAccess`: no-op when the table is at capacity and the
frame is unknown; otherwise (default-creating the record as `hash_[f]` does)
pop the oldest timestamp when the FIFO already holds `k`, then push the
current timestamp and advance the clock. -/
def LRUK.recordAccess (s : LRUK) (f : Nat) : LRUK :=
  if s.numFrames = s.hash.length ∧ recOf s.hash f = none then s
  else
    let r := (recOf s.hash f).getD ⟨[], false⟩
    let t := if r.time.length = s.k then r.time.tail else r.time
    { s with hash := setRec s.hash f ⟨t ++ [s.clock], r.evictable⟩,
             clock := s.clock + 1 }

/-- Method `LRUKReplacer::SetEvictable`: guarded by `hash_.count(frame_id) != 0`;
adjusts `curr_size_` on an actual flag transition. -/
def LRUK.setEvictable (s : LRUK) (f : Nat) (b : Bool) : LRUK :=
  match recOf s.hash f with
  | none => s
  | some r =>
    let n := if !r.evictable && b then s.currSize + 1
             else if r.evictable && !b then s.currSize - 1 else s.currSize
    { s with hash := setRec s.hash f ⟨r.time, b⟩, currSize := n }

/-- Method `LRUKReplacer::Judge(s, t)`: true when frame `s` should be evicted before
frame `t`.  Fewer-than-`k` histories win over full ones; otherwise the queue
fronts (`time_.front()`) are compared. -/
def judge (k : Nat) (a b : FrameRec) : Bool :=
  if a.time.length < k ∧ b.time.length = k then true
  else if a.time.length = k ∧ b.time.length < k then false
  else a.time.headD 0 < b.time.headD 0

/-- The selection loop of `LRUKReplacer::Evict`: scan `hash_`, keep the best
evictable candidate seen so far (`*frame_id`, here an `Option` instead of the
`-1` sentinel, which no nonnegative frame id can collide with). -/
def evictPick (k : Nat) : List (Nat × FrameRec) → Option (Nat × FrameRec) → Option (Nat × FrameRec)
  | [], acc => acc
  | (f, r) :: t, acc =>
    if r.evictable then
      match acc with
      | none => evictPick k t (some (f, r))
      | some (g, q) => if judge k r q then evictPick k t (some (f, r)) else evictPick k t (some (g, q))
    else evictPick k t acc

/-- Method `LRUKReplacer::Evict`: on success erase the victim's record and decrement
`curr_size_`. -/
def LRUK.evict (s : LRUK) : Option Nat × LRUK :=
  match evictPick s.k s.hash none with
  | none => (none, s)
  | some (f, _) => (some f, { s with hash := eraseRec s.hash f, currSize := s.currSize - 1 })

/-- Method `LRUKReplacer::Remove`: silently returns on an untracked frame; throws on a
tracked non-evictable frame; otherwise erases the record. -/
def LRUK.removeFrame (s : LRUK) (f : Nat) : Except String LRUK :=
  match recOf s.hash f with
  | none => .ok s
  | some r =>
    if !r.evictable then .error "Remove a non-evictable frame!"
    else .ok { s with hash := eraseRec s.hash f, currSize := s.currSize - 1 }

/-- Method `LRUKReplacer::Size`. -/
def LRUK.sizeEv (s : LRUK) : Nat := s.currSize

/-- States reachable from a freshly constructed replacer by the public
operations.  A `Remove` that throws propagates the exception, so only
non-throwing `Remove` steps extend a run. -/
inductive LRUK.Reach : LRUK → Prop
  | init (n k : Nat) : LRUK.Reach (LRUK.init n k)
  | record (s : LRUK) (f : Nat) : LRUK.Reach s → LRUK.Reach (s.recordAccess f)
  | setEv (s : LRUK) (f : Nat) (b : Bool) : LRUK.Reach s → LRUK.Reach (s.setEvictable f b)
  | evictStep (s : LRUK) : LRUK.Reach s → LRUK.Reach (s.evict).2
  | removeStep (s s2 : LRUK) (f : Nat) : LRUK.Reach s → s.removeFrame f = Except.ok s2 → LRUK.Reach s2

/-! ### Victim-selection order

The source compares candidates with `Judge`; the lemmas below show this is the
strict lexicographic order on (has-full-history, queue front). -/

/-- Queue front `time_.front()`.  The invariant `LRUK.Inv` proves the FIFO is
sorted chronologically, so for a record with fewer than `k` accesses this is
the earliest recorded access, and for a full record of `k` timestamps it is
exactly the `k`-th most recent access. -/
def frontTs (r : FrameRec) : Nat := r.time.headD 0

/-- Eviction class: 0 when fewer than `k` accesses are recorded (backward
k-distance treated as infinite), 1 otherwise. -/
def cls (k : Nat) (r : FrameRec) : Nat := if r.time.length < k then 0 else 1

/-- Strict priority: smaller class first, then smaller queue front. -/
def ltRec (k : Nat) (a b : FrameRec) : Prop :=
  cls k a < cls k b ∨ (cls k a = cls k b ∧ frontTs a < frontTs b)

/-- The victim-selection rule exactly as the specification words it: a frame
with fewer than `k` recorded accesses beats any frame with `k` accesses; two
frames below `k` compare by their earliest recorded timestamp; two full frames
compare by their `k`-th most recent timestamp (the front of the length-`k`
FIFO). -/
def preferredOver (k : Nat) (a b : FrameRec) : Prop :=
  (a.time.length < k ∧ b.time.length = k)
  ∨ (a.time.length < k ∧ b.time.length < k ∧ frontTs a < frontTs b)
  ∨ (a.time.length = k ∧ b.time.length = k ∧ frontTs a < frontTs b)

/-- Timestamp-disjointness of two frame records: no access timestamp is shared.
Each call to RecordAccess consumes a fresh value of the global clock, so
distinct frames never share a timestamp. -/
def TDisj (p q : Nat × FrameRec) : Prop := ∀ x ∈ p.2.time, x ∉ q.2.time

/-- State invariant of the replacer (for `k ≥ 1`): every tracked record holds
a nonempty chronologically sorted FIFO of at most `k` timestamps, all below
the clock; records of distinct frames share no timestamp; frame keys are
unique. -/
structure LRUK.Inv (s : LRUK) : Prop where
  recs : ∀ p ∈ s.hash, p.2.time ≠ [] ∧ p.2.time.length ≤ s.k ∧
      p.2.time.Sorted (· < ·) ∧ ∀ x ∈ p.2.time, x < s.clock
  disj : s.hash.Pairwise TDisj
  keys : (s.hash.map Prod.fst).Nodup

/-- A concrete replacer run: three frames, k = 2, frames 0 and 1 accessed once
each and made evictable. -/
def lruDemo : LRUK :=
  ((((LRUK.init 3 2).recordAccess 0).recordAccess 1).setEvictable 0 true).setEvictable 1 true

/-! ## Buffer pool manager (`src/buffer/buffer_pool_manager_instance.cpp`)

A frame is a `Page` object of the pool array `pages_`; its byte buffer is
abstracted to a single number (`ResetMemory` zeroes it, the disk manager reads
and writes it wholesale).  `frames` is the array `pages_`, `pageTable` the
`page_table_`, `repl` the `replacer_`, `disk` the disk manager's store,
`dealloc` the log of `DeallocatePage` calls and `nextPageId` the allocation
counter. -/

structure Frame where
  pageId : Int
  pinCount : Nat
  isDirty : Bool
  data : Nat
deriving Repr, DecidableEq

/-- A fresh `Page` object: invalid page id (-1), unpinned, clean, zeroed
bytes.  (The `Page` class lives in a header outside `src/`; these are its
documented initial field values.) -/
def Frame.initial : Frame := ⟨-1, 0, false, 0⟩

structure BPM where
  poolSize : Nat
  frames : Nat → Frame
  freeList : List Nat
  pageTable : List (Int × Nat)
  repl : LRUK
  disk : Int → Nat
  dealloc : List Int
  nextPageId : Int

/-- Lookup `page_table_->Find(page_id, frame_id)`.  The page table is the
extendible hash table of this repository instantiated at
`<page_id_t, frame_id_t>`; at the BPM level it is modelled by its
key-to-value map semantics.  (`Bucket::Find` in fact writes its out-parameter
— an uninitialised local in every BPM caller — back into the matched slot;
that defect is modelled and settled in the extendible-hash-table section
below.  C++ assigns no defined value to the uninitialised read, so the
residency lookup here returns the stored frame id, which is what the
flush/delete logic under examination consumes.) -/
def ptFind : List (Int × Nat) → Int → Option Nat
  | [], _ => none
  | (p, f) :: t, pid => if p = pid then some f else ptFind t pid

/-- Insertion `page_table_->Insert`: overwrite an existing key or append. -/
def ptInsert : List (Int × Nat) → Int → Nat → List (Int × Nat)
  | [], pid, fid => [(pid, fid)]
  | (p, f) :: t, pid, fid => if p = pid then (pid, fid) :: t else (p, f) :: ptInsert t pid fid

/-- Removal `page_table_->Remove`. -/
def ptRemove : List (Int × Nat) → Int → List (Int × Nat)
  | [], _ => []
  | (p, f) :: t, pid => if p = pid then t else (p, f) :: ptRemove t pid

def updFrame (fr : Nat → Frame) (i : Nat) (x : Frame) : Nat → Frame :=
  fun j => if j = i then x else fr j

def diskWrite (d : Int → Nat) (pid : Int) (x : Nat) : Int → Nat :=
  fun p => if p = pid then x else d p

/-- Constructor: every frame starts on the free list; page table and replacer
are fresh.  The page-id counter `next_page_id_` starts at 0 (its initialiser
lives in the header; only its monotonic increase matters to the claims). -/
def BPM.init (poolSize k : Nat) : BPM :=
  ⟨poolSize, fun _ => Frame.initial, List.range poolSize, [], LRUK.init poolSize k,
   fun _ => 0, [], 0⟩

/-- Method `AllocatePage`: `return next_page_id_++`. -/
def BPM.allocatePage (s : BPM) : Int × BPM :=
  (s.nextPageId, { s with nextPageId := s.nextPageId + 1 })

/-- Frame acquisition shared verbatim by `NewPgImp` and `FetchPgImp`: pop the
free list if nonempty; otherwise evict a victim — writing its bytes back when
dirty and removing its page-table mapping; `none` when neither works. -/
def BPM.getFrame (s : BPM) : Option (Nat × BPM) :=
  match s.freeList with
  | fid :: rest => some (fid, { s with freeList := rest })
  | [] =>
    match s.repl.evict with
    | (some fid, repl2) =>
      let s1 := { s with repl := repl2 }
      let s2 := if (s1.frames fid).isDirty then
          { s1 with disk := diskWrite s1.disk (s1.frames fid).pageId (s1.frames fid).data }
        else s1
      some (fid, { s2 with pageTable := ptRemove s2.pageTable (s2.frames fid).pageId })
    | (none, _) => none

/-- Method `BufferPoolManagerInstance::NewPgImp`: acquire a frame, allocate a
fresh page id, install the mapping, zero the frame (`ResetMemory`), pin it,
record the access and make it non-evictable.  Returns the allocated page id
standing for the returned `Page*`. -/
def BPM.newPg (s : BPM) : Option Int × BPM :=
  match s.getFrame with
  | none => (none, s)
  | some (fid, s1) =>
    let (pid, s2) := s1.allocatePage
    let s3 := { s2 with pageTable := ptInsert s2.pageTable pid fid,
                        frames := updFrame s2.frames fid ⟨pid, 1, false, 0⟩ }
    (some pid, { s3 with repl := (s3.repl.recordAccess fid).setEvictable fid false })

/-- Method `BufferPoolManagerInstance::FetchPgImp`: short-circuit when the
page is resident (record access, make non-evictable, increment the pin);
otherwise acquire a frame, install the mapping, load the bytes from disk
(`ResetMemory` then `ReadPage`) and pin. -/
def BPM.fetchPg (s : BPM) (pid : Int) : Option Nat × BPM :=
  match ptFind s.pageTable pid with
  | some fid =>
    let s1 := { s with repl := (s.repl.recordAccess fid).setEvictable fid false }
    let fr := s1.frames fid
    (some fid, { s1 with frames := updFrame s1.frames fid { fr with pinCount := fr.pinCount + 1 } })
  | none =>
    match s.getFrame with
    | none => (none, s)
    | some (fid, s1) =>
      let s2 := { s1 with pageTable := ptInsert s1.pageTable pid fid,
                          frames := updFrame s1.frames fid ⟨pid, 1, false, s1.disk pid⟩ }
      (some fid, { s2 with repl := (s2.repl.recordAccess fid).setEvictable fid false })

/-- Method `BufferPoolManagerInstance::UnpinPgImp`: false when the page is not
resident or already unpinned; otherwise decrement the pin, OR the dirty flag,
and mark the frame evictable when the pin reaches zero. -/
def BPM.unpinPg (s : BPM) (pid : Int) (isDirty : Bool) : Bool × BPM :=
  match ptFind s.pageTable pid with
  | none => (false, s)
  | some fid =>
    if (s.frames fid).pinCount = 0 then (false, s)
    else
      let fr := s.frames fid
      let fr2 := { fr with pinCount := fr.pinCount - 1, isDirty := fr.isDirty || isDirty }
      let s1 := { s with frames := updFrame s.frames fid fr2 }
      if fr2.pinCount = 0 then (true, { s1 with repl := s1.repl.setEvictable fid true })
      else (true, s1)

/-- Method `BufferPoolManagerInstance::FlushPgImp`: false when the page is not
resident; otherwise write the frame bytes to disk unconditionally, then
execute `pages_->is_dirty_ = false;` — which clears the dirty flag of frame 0
(`pages_` decays to `&pages_[0]`), not of the flushed frame. -/
def BPM.flushPg (s : BPM) (pid : Int) : Bool × BPM :=
  match ptFind s.pageTable pid with
  | none => (false, s)
  | some fid =>
    let s1 := { s with disk := diskWrite s.disk (s.frames fid).pageId (s.frames fid).data }
    (true, { s1 with frames := updFrame s1.frames 0 { s1.frames 0 with isDirty := false } })

/-- Method `BufferPoolManagerInstance::FlushAllPgsImp`: every frame whose
stored page id has a page-table entry is written back; the dirty-flag clear
again targets `pages_[0]`. -/
def BPM.flushAll (s : BPM) : BPM :=
  (List.range s.poolSize).foldl
    (fun st i =>
      match ptFind st.pageTable ((st.frames i).pageId) with
      | some _ =>
        let st1 := { st with disk := diskWrite st.disk ((st.frames i).pageId) ((st.frames i).data) }
        { st1 with frames := updFrame st1.frames 0 { st1.frames 0 with isDirty := false } }
      | none => st) s

/-- Modelled from the spec: the disk manager's `DeallocatePage(page_id)`
(declared in the external DiskManager interface, outside `src/`) frees the
page id on disk; the model records the freed id in a log. -/
def BPM.deallocatePage (s : BPM) (pid : Int) : BPM :=
  { s with dealloc := pid :: s.dealloc }

/-- Method `BufferPoolManagerInstance::DeletePgImp`: calls `DeallocatePage`
first thing; returns true when the page is not resident and false when it is
pinned; otherwise writes back a dirty page (clearing frame 0's dirty bit),
removes the frame from the replacer (`Remove` can throw, modelled as `none`)
and appends the frame to the free list.  No page-table removal is performed
anywhere in the function. -/
def BPM.deletePg (s : BPM) (pid : Int) : Option (Bool × BPM) :=
  let s1 := s.deallocatePage pid
  match ptFind s1.pageTable pid with
  | none => some (true, s1)
  | some fid =>
    if (s1.frames fid).pinCount > 0 then some (false, s1)
    else
      let s2 := if (s1.frames fid).isDirty then
          let s2a := { s1 with disk := diskWrite s1.disk (s1.frames fid).pageId (s1.frames fid).data }
          { s2a with frames := updFrame s2a.frames 0 { s2a.frames 0 with isDirty := false } }
        else s1
      match s2.repl.removeFrame fid with
      | .error _ => none
      | .ok repl2 => some (true, { s2 with repl := repl2, freeList := s2.freeList ++ [fid] })

/-- Concrete run for C3: two frames; pages 0 and 1 created and both unpinned
dirty, so frames 0 and 1 are resident and dirty. -/
def bpmFlushDemo : BPM :=
  ((((((BPM.init 2 2).newPg).2.newPg).2.unpinPg 0 true).2.unpinPg 1 true)).2

/-- Concrete run for C4: one new page (page 0, pinned in frame 0). -/
def bpmDeleteDemo : BPM := ((BPM.init 2 2).newPg).2

/-- Concrete run for C8: page 0 created then unpinned clean, so frame 0 is
resident, unpinned and deletable. -/
def bpmXorDemo : BPM := (((BPM.init 2 2).newPg).2.unpinPg 0 false).2

/-- The state after the C8 deletion. -/
def bpmAfterDelete : BPM := ((bpmXorDemo.deletePg 0).getD (false, bpmXorDemo)).2

/-! ## Extendible hash table (`src/container/hash/extendible_hash_table.cpp`)

Instantiated at integer keys and values, as the repository's own
`ExtendibleHashTable<int, int>` instantiation.  `std::hash<int>` is the
identity on nonnegative values in the reference library, so keys are `Nat`
and the hash is the identity; `hash(k) & ((1 << d) - 1)` is `k % 2 ^ d`.
Directory slots name buckets by index into a bucket pool, mirroring the
`shared_ptr` sharing of the source (many slots may name one bucket). -/

structure EBucket where
  list : List (Nat × Int)
  size : Nat
  depth : Nat
deriving Repr, DecidableEq

/-- Scan of `Bucket::Find(key, value)` over the pair list: on a hit it
executes `(*it).second = value;` — storing the caller's out-parameter into
the matched slot — and returns true.  The out-parameter itself is never
assigned. -/
def bucketFindList : List (Nat × Int) → Nat → Int → Bool × List (Nat × Int)
  | [], _, _ => (false, [])
  | (k2, v2) :: t, key, value =>
    if k2 = key then (true, (k2, value) :: t)
    else
      let r := bucketFindList t key value
      (r.1, (k2, v2) :: r.2)

def EBucket.findB (b : EBucket) (key : Nat) (value : Int) : Bool × EBucket :=
  let r := bucketFindList b.list key value
  (r.1, { b with list := r.2 })

/-- Overwrite scan of `Bucket::Insert`: update the value when the key is
already present. -/
def bucketOverwriteList : List (Nat × Int) → Nat → Int → Bool × List (Nat × Int)
  | [], _, _ => (false, [])
  | (k2, v2) :: t, key, value =>
    if k2 = key then (true, (k2, value) :: t)
    else
      let r := bucketOverwriteList t key value
      (r.1, (k2, v2) :: r.2)

/-- Method `Bucket::Insert`: overwrite when present; fail when full; else
append.  (`IsFull` is declared in the header outside `src/`; modelled from the
spec: a bucket holds up to `bucket_size` pairs, so it is full when the list
has reached `size_`.) -/
def EBucket.insertB (b : EBucket) (key : Nat) (value : Int) : Bool × EBucket :=
  let r := bucketOverwriteList b.list key value
  if r.1 then (true, { b with list := r.2 })
  else if b.size ≤ b.list.length then (false, b)
  else (true, { b with list := b.list ++ [(key, value)] })

/-- Method `Bucket::Remove`: erase the first pair with the key. -/
def bucketRemoveList : List (Nat × Int) → Nat → Bool × List (Nat × Int)
  | [], _ => (false, [])
  | (k2, v2) :: t, key =>
    if k2 = key then (true, t)
    else
      let r := bucketRemoveList t key
      (r.1, (k2, v2) :: r.2)

structure EHT where
  globalDepth : Nat
  bucketSize : Nat
  numBuckets : Nat
  buckets : List EBucket
  dir : List Nat
deriving Repr, DecidableEq

/-- Constructor: global depth 0, one empty bucket, directory of one slot. -/
def EHT.init (bucketSize : Nat) : EHT :=
  ⟨0, bucketSize, 1, [⟨[], bucketSize, 0⟩], [0]⟩

/-- Method `IndexOf`: `hash(key) & ((1 << global_depth_) - 1)`. -/
def EHT.indexOf (s : EHT) (key : Nat) : Nat := key % 2 ^ s.globalDepth

/-- Method `ExtendibleHashTable::Find`: resolve the directory slot and run the
bucket's `Find`.  Result: (return value, out-parameter after the call, table
state after the call). -/
def EHT.findT (s : EHT) (key : Nat) (vout : Int) : Bool × Int × EHT :=
  let bid := s.dir.getD (s.indexOf key) 0
  let b := s.buckets.getD bid ⟨[], s.bucketSize, 0⟩
  let r := b.findB key vout
  (r.1, vout, { s with buckets := s.buckets.set bid r.2 })

/-- Method `ExtendibleHashTable::Remove`. -/
def EHT.removeT (s : EHT) (key : Nat) : Bool × EHT :=
  let bid := s.dir.getD (s.indexOf key) 0
  let b := s.buckets.getD bid ⟨[], s.bucketSize, 0⟩
  let r := bucketRemoveList b.list key
  (r.1, { s with buckets := s.buckets.set bid { b with list := r.2 } })

/-- The directory rewrite executed inside the item loop of
`RedistributeBucket`: every slot whose low `depth-1` bits match the old
pattern but whose low `depth` bits do not is pointed at the new bucket. -/
def redirectDir (dir : List Nat) (depth preidx nb : Nat) : List Nat :=
  (List.range dir.length).map (fun i =>
    if i % 2 ^ (depth - 1) = preidx ∧ i % 2 ^ depth ≠ preidx then nb else dir.getD i 0)

/-- The item loop of `RedistributeBucket`, cursor semantics included: the body
advances the iterator once itself (`erase(it++)` after a move, a bare `it++`
otherwise) and the for-statement advances it again, so the cursor moves one
list position after a move and two otherwise; each iteration ends with the
directory rewrite.  (If the cursor stepped past `end()`, the C++ comparison
`it != end()` would be undefined behaviour; the position check below stops
instead — the concrete runs used by the claims never reach that situation.)
An item is moved to the sibling bucket `p` when its low `depth-1` bits differ
from `preidx` — the same mask on both sides, which is the defect settled in
C2. -/
def redistLoop (depth preidx nb : Nat) :
    Nat → List (Nat × Int) → EBucket → List Nat → Nat →
    List (Nat × Int) × EBucket × List Nat
  | 0, old, p, dir, _ => (old, p, dir)
  | fuel + 1, old, p, dir, pos =>
    if h : pos < old.length then
      let item := old.get ⟨pos, h⟩
      let idx := item.1 % 2 ^ (depth - 1)
      if idx ≠ preidx then
        let p2 := (p.insertB item.1 item.2).2
        redistLoop depth preidx nb fuel (old.eraseIdx pos) p2
          (redirectDir dir depth preidx nb) (pos + 1)
      else
        redistLoop depth preidx nb fuel old p (redirectDir dir depth preidx nb) (pos + 2)
    else (old, p, dir)

/-- Method `ExtendibleHashTable::RedistributeBucket`: bump the bucket's local
depth and the bucket count, create the sibling bucket at the new depth,
compute the old pattern `preidx` from the bucket's first item (the bucket is
full, hence nonempty, whenever this is called), then run the item loop. -/
def EHT.redistribute (s : EHT) (bid : Nat) : EHT :=
  let b0 := s.buckets.getD bid ⟨[], s.bucketSize, 0⟩
  let depth := b0.depth + 1
  let nb := s.buckets.length
  let preidx := (b0.list.headD (0, 0)).1 % 2 ^ (depth - 1)
  let r := redistLoop depth preidx nb (2 * b0.list.length + 2) b0.list
      ⟨[], s.bucketSize, depth⟩ s.dir 0
  { s with numBuckets := s.numBuckets + 1,
           buckets := (s.buckets.set bid { b0 with list := r.1, depth := depth }) ++ [r.2.1],
           dir := r.2.2 }

/-- Method `ExtendibleHashTable::Insert`: loop — try the bucket insert; on
failure split the bucket when its local depth is below the global depth,
otherwise double the directory (append a copy of every slot) and retry.  The
C++ `while (true)` is unbounded; `fuel` bounds the recursion and is ample in
the concrete runs below. -/
def EHT.insertT : EHT → Nat → Int → Nat → EHT
  | s, _, _, 0 => s
  | s, key, value, fuel + 1 =>
    let idx := s.indexOf key
    let bid := s.dir.getD idx 0
    let b := s.buckets.getD bid ⟨[], s.bucketSize, 0⟩
    let r := b.insertB key value
    let s2 := { s with buckets := s.buckets.set bid r.2 }
    if r.1 then s2
    else if b.depth ≠ s2.globalDepth then EHT.insertT (s2.redistribute bid) key value fuel
    else
      EHT.insertT { s2 with globalDepth := s2.globalDepth + 1, dir := s2.dir ++ s2.dir }
        key value fuel

/-- Scenario run for C2: bucket_size 2; insert (1,7), (5,7), (9,7) — all three
keys hash to the same low bit. -/
def ehtDemo : EHT :=
  (((EHT.init 2).insertT 1 7 9).insertT 5 7 9).insertT 9 7 9

/-- Run for C5: bucket_size 4 with (1,10) stored. -/
def ehtFindDemo : EHT := (EHT.init 4).insertT 1 10 9

/-! ## B+-tree (`src/storage/index/b_plus_tree.cpp`,
`src/storage/page/b_plus_tree_leaf_page.cpp`,
`src/storage/page/b_plus_tree_internal_page.cpp`,
`src/storage/index/index_iterator.cpp`)

A tree page is the on-disk union of leaf and internal pages: the common
header (`page_type`, `size`, `max_size`, `parent_page_id`), the leaf's
`next_page_id`, and the record array, modelled as a total function over
zero-initialised backing storage exactly as `NewPage`'s `ResetMemory` leaves
a frame.  Keys are integers compared by the integer comparator
(`comparator_(a,b) < 0` is `a < b`); leaf values are record ids and internal
values are child page ids, both rendered as `Int`.  The buffer pool is
abstracted to the page store `pages` with an allocation counter: pin counts
and the header-page record maintained by `UpdateRootPageId` do not affect the
contents read by the operations under study. -/

structure BTPage where
  pageType : Nat
  size : Nat
  maxSize : Nat
  parent : Int
  next : Int
  arr : Nat → Int × Int

/-- A page as `NewPage` delivers it (`ResetMemory`): all-zero bytes, so
page type 0 (invalid), zero sizes and a zeroed record array. -/
def BTPage.zero : BTPage := ⟨0, 0, 0, 0, 0, fun _ => (0, 0)⟩

def updSlot (a : Nat → Int × Int) (i : Nat) (x : Int × Int) : Nat → Int × Int :=
  fun j => if j = i then x else a j

/-- Method `BPlusTreeLeafPage::Init`: leaf type, empty, no next page. -/
def leafInitPage (parent : Int) (maxSize : Nat) : BTPage :=
  { BTPage.zero with pageType := 1, next := -1, parent := parent, maxSize := maxSize }

/-- Method `BPlusTreeInternalPage::Init`: internal type, empty (the slot-0
key is never written and keeps its zeroed contents). -/
def internalInitPage (parent : Int) (maxSize : Nat) : BTPage :=
  { BTPage.zero with pageType := 2, parent := parent, maxSize := maxSize }

/-- The strict-lower-bound binary-search loop shared by
`BPlusTreeLeafPage::KeyIndex` and `BPlusTreeInternalPage::KeyIndex`: while
`l < r`, descend on `array_[mid].first < key`.  Each step shrinks `r - l`, so
fuel `r - l` always suffices; callers pass the page size. -/
def bsearchLow (arr : Nat → Int × Int) (key : Int) : Nat → Nat → Nat → Nat
  | l, _, 0 => l
  | l, r, fuel + 1 =>
    if l < r then
      let mid := (l + r) / 2
      if (arr mid).1 < key then bsearchLow arr key (mid + 1) r fuel
      else bsearchLow arr key l mid fuel
    else l

/-- Method `BPlusTreeLeafPage::KeyIndex`: lower bound over `[0, size)`. -/
def BTPage.leafKeyIndex (p : BTPage) (key : Int) : Nat :=
  bsearchLow p.arr key 0 p.size p.size

/-- Method `BPlusTreeInternalPage::KeyIndex`: lower bound over `[1, size)`. -/
def BTPage.internalKeyIndex (p : BTPage) (key : Int) : Nat :=
  bsearchLow p.arr key 1 p.size p.size

/-- The upper-bound loop of `BPlusTreeInternalPage::Lookup`: descend on
`array_[mid].first <= key` over `[1, size)`. -/
def bsearchHigh (arr : Nat → Int × Int) (key : Int) : Nat → Nat → Nat → Nat
  | l, _, 0 => l
  | l, r, fuel + 1 =>
    if l < r then
      let mid := (l + r) / 2
      if (arr mid).1 ≤ key then bsearchHigh arr key (mid + 1) r fuel
      else bsearchHigh arr key l mid fuel
    else l

/-- Method `BPlusTreeInternalPage::Lookup`: the child `array_[r-1].second`
for the last separator at most `key` (slot 0 acting as minus infinity). -/
def BTPage.lookupChild (p : BTPage) (key : Int) : Int :=
  (p.arr (bsearchHigh p.arr key 1 p.size p.size - 1)).2

/-- Method `BPlusTreeLeafPage::Insert(pair, index, cmp)`: reject when slot
`index` holds an equal key; otherwise shift `[index, size)` one slot right,
store the pair at `index`, grow. -/
def BTPage.leafInsert (p : BTPage) (pair : Int × Int) (index : Nat) : Bool × BTPage :=
  if index < p.size ∧ (p.arr index).1 = pair.1 then (false, p)
  else
    (true, { p with
      arr := fun j => if j < index then p.arr j
                      else if j = index then pair
                      else if j ≤ p.size then p.arr (j - 1) else p.arr j,
      size := p.size + 1 })

/-- Method `BPlusTreeLeafPage::Split(bother_page)`: move slots
`[size/2, max_size)` into the fresh sibling and thread the leaf chain
(`bother.next = this.next; this.next = botherId`). -/
def leafSplit (p bother : BTPage) (botherId : Int) : BTPage × BTPage :=
  let mid := p.size / 2
  let moved := p.maxSize - mid
  let bo := { bother with
    arr := fun j => if j < moved then p.arr (mid + j) else bother.arr j,
    size := bother.size + moved,
    next := p.next }
  ({ p with size := p.size - moved, next := botherId }, bo)

/-- The descending shift-and-insert loop of `BPlusTreeInternalPage::Insert`:
scan `i` from `size-1` down to 1 shifting greater entries right; place the
pair one past the first non-greater entry, or at slot 1 when every entry is
greater (slot 0's key is unused). -/
def internalInsGo (pair : Int × Int) : (Nat → Int × Int) → Nat → (Nat → Int × Int)
  | arr, 0 => updSlot arr 1 pair
  | arr, i + 1 =>
    if (arr (i + 1)).1 > pair.1 then
      internalInsGo pair (updSlot arr (i + 2) (arr (i + 1))) i
    else updSlot arr (i + 2) pair

/-- Method `BPlusTreeInternalPage::Insert(pair, cmp)`. -/
def BTPage.internalInsert (p : BTPage) (pair : Int × Int) : BTPage :=
  { p with arr := internalInsGo pair p.arr (p.size - 1), size := p.size + 1 }

/-- The scratch-array construction of `BPlusTreeInternalPage::Split`: `tmp`
holds the page's `max_size` entries with `(key, botherId)` placed in key
order; `flag` records that the new pair is still unplaced, and a true flag at
the end appends it at `tmp[max_size]`.  `tmp` is a `malloc` buffer; unwritten
slots are modelled as zero (every slot is written before use on the paths the
code takes). -/
def splitTmpGo (p : BTPage) (key : Int) (botherId : Int) :
    Nat → Nat → Bool → (Nat → Int × Int) → (Nat → Int × Int) × Bool
  | _, 0, flag, tmp => (tmp, flag)
  | i, c + 1, flag, tmp =>
    if (p.arr i).1 < key then
      splitTmpGo p key botherId (i + 1) c flag (updSlot tmp i (p.arr i))
    else if flag ∧ (p.arr i).1 > key then
      splitTmpGo p key botherId (i + 1) c false
        (updSlot (updSlot tmp i (key, botherId)) (i + 1) (p.arr i))
    else splitTmpGo p key botherId (i + 1) c flag (updSlot tmp (i + 1) (p.arr i))

def splitTmp (p : BTPage) (key : Int) (botherId : Int) : Nat → Int × Int :=
  let r := splitTmpGo p key botherId 1 (p.maxSize - 1) true
      (updSlot (fun _ => (0, 0)) 0 (p.arr 0))
  if r.2 then updSlot r.1 p.maxSize (key, botherId) else r.1

structure BTree where
  rootId : Int
  pages : Int → BTPage
  nextId : Int
  leafMax : Nat
  internalMax : Nat

/-- Write one page of the store. -/
def BTree.setPage (t : BTree) (pid : Int) (p : BTPage) : BTree :=
  { t with pages := fun i => if i = pid then p else t.pages i }

/-- NewPage through the buffer pool: a fresh id from the increasing counter
and a zeroed frame.  (Ids start at 1, leaving 0 to the header page; the
concrete values are immaterial.) -/
def BTree.newPageId (t : BTree) : Int × BTree :=
  (t.nextId, { t with nextId := t.nextId + 1 })

/-- An empty tree (`root_page_id_ = INVALID_PAGE_ID`) with the given
fanouts. -/
def BTree.emptyTree (leafMax internalMax : Nat) : BTree :=
  ⟨-1, fun _ => BTPage.zero, 1, leafMax, internalMax⟩

/-- The descent loop of `FindLeafPage`: follow `Lookup` children until a leaf
page.  The height is finite; fuel bounds the recursion and is ample in the
runs below. -/
def findLeafGo (t : BTree) (key : Int) : Int → Nat → Option Int
  | pid, 0 => if (t.pages pid).pageType = 1 then some pid else none
  | pid, fuel + 1 =>
    if (t.pages pid).pageType = 1 then some pid
    else findLeafGo t key ((t.pages pid).lookupChild key) fuel

/-- Method `FindLeafPage`: `nullptr` (none) for the empty tree, else descend
from the root. -/
def BTree.findLeaf (t : BTree) (key : Int) (fuel : Nat) : Option Int :=
  if t.rootId = -1 then none else findLeafGo t key t.rootId fuel

/-- Method `BPlusTree::GetValue`: false on the empty tree; otherwise find the
leaf, binary-search the key and return its value on an exact hit. -/
def BTree.getValue (t : BTree) (key : Int) (fuel : Nat) : Option Int :=
  if t.rootId = -1 then none
  else
    match t.findLeaf key fuel with
    | none => none
    | some lid =>
      let leaf := t.pages lid
      let i := leaf.leafKeyIndex key
      if i < leaf.size ∧ (leaf.arr i).1 = key then some (leaf.arr i).2 else none

/-- Method `BPlusTreeInternalPage::Split(key, page_bother, page_parent_page,
cmp, bpm)` on the page store: build `tmp`, point the pending right sibling
`botherId` at this page, then (growing and shrinking the sizes as the source
does) keep the low `mid` entries of `tmp` here, move `tmp[mid..max_size]`
into the new page `sibId`, and rewrite every moved child's parent to
`sibId`. -/
def BTree.internalSplit (t : BTree) (pid : Int) (key : Int) (botherId sibId : Int) : BTree :=
  let p := t.pages pid
  let tmp := splitTmp p key botherId
  let t1 := t.setPage botherId { t.pages botherId with parent := pid }
  let mid := (p.maxSize + 1) / 2
  let moved := p.maxSize + 1 - mid
  let pNew := { p with arr := fun i => if i < mid then tmp i else p.arr i, size := mid }
  let sib0 := t1.pages sibId
  let sibNew := { sib0 with
    arr := fun j => if j < moved then tmp (mid + j) else sib0.arr j,
    size := sib0.size + moved }
  let t2 := (t1.setPage pid pNew).setPage sibId sibNew
  (List.range moved).foldl
    (fun st j =>
      let cid := (tmp (mid + j)).2
      st.setPage cid { st.pages cid with parent := sibId }) t2

/-- Method `InsertInParent(page_leaf, key, page_bother)`: a new root when the
left page is the root (entries `[(-, left), (key, right)]`, both children
reparented, root id updated — the header-page record kept by
`UpdateRootPageId` is bookkeeping outside the tree contents); otherwise
insert into the parent when it has room; otherwise split the parent and
recurse pushing up `parent_page_node->KeyAt(0)` — the slot-0 key of the left
(just split) parent, exactly as the source does. -/
def BTree.insertInParent (t : BTree) : Nat → Int → Int → Int → BTree
  | 0, _, _, _ => t
  | fuel + 1, leftId, key, rightId =>
    if leftId = t.rootId then
      let r := t.newPageId
      let nid := r.1
      let t1 := r.2
      let root0 := internalInitPage (-1) t1.internalMax
      let root1 := { root0 with
        arr := updSlot (updSlot root0.arr 0 ((root0.arr 0).1, leftId)) 1 (key, rightId),
        size := 2 }
      let t2 := ((t1.setPage nid root1).setPage leftId
        { t1.pages leftId with parent := nid }).setPage rightId
        { t1.pages rightId with parent := nid }
      { t2 with rootId := nid }
    else
      let parentId := (t.pages leftId).parent
      let parent := t.pages parentId
      if parent.size < parent.maxSize then
        (t.setPage parentId (parent.internalInsert (key, rightId))).setPage rightId
          { t.pages rightId with parent := parentId }
      else
        let r := t.newPageId
        let sid := r.1
        let t1 := r.2
        let t2 := t1.setPage sid (internalInitPage (-1) t1.internalMax)
        let t3 := t2.internalSplit parentId key rightId sid
        t3.insertInParent fuel parentId ((t3.pages parentId).arr 0).1 sid

/-- Method `BPlusTree::Insert`: create a root leaf when the tree is empty
(the `while (page_leaf == nullptr)` loop runs exactly once then), find the
target leaf, attempt the leaf insert (false on a duplicate), and when the
leaf reaches `leaf_max_size_` split it and push the sibling's first key to
the parent. -/
def BTree.insertKV (t : BTree) (key v : Int) (fuel : Nat) : Bool × BTree :=
  let t0 :=
    if t.rootId = -1 then
      let r := t.newPageId
      { r.2.setPage r.1 (leafInitPage (-1) r.2.leafMax) with rootId := r.1 }
    else t
  match t0.findLeaf key fuel with
  | none => (false, t0)
  | some lid =>
    let leaf := t0.pages lid
    let idx := leaf.leafKeyIndex key
    let ins := leaf.leafInsert (key, v) idx
    if ins.1 = false then (false, t0)
    else
      let t2 := t0.setPage lid ins.2
      if ins.2.size = t2.leafMax then
        let r := t2.newPageId
        let bid := r.1
        let t3 := r.2.setPage bid (leafInitPage (-1) r.2.leafMax)
        let sp := leafSplit (t3.pages lid) (t3.pages bid) bid
        let t4 := (t3.setPage lid sp.1).setPage bid sp.2
        (true, t4.insertInParent fuel lid ((t4.pages bid).arr 0).1 bid)
      else (true, t2)

/-- Method `BPlusTreeLeafPage::Merge(right_page, bpm)`: append all of the
right leaf's pairs (the loop index starts at the left size, both indices
advance together), then zero the right page's size.  The Unpin/DeletePage
calls are buffer-pool bookkeeping; the deleted page's bytes remain in the
store. -/
def BTree.leafMerge (t : BTree) (leftId rightId : Int) : BTree :=
  let lf := t.pages leftId
  let rt := t.pages rightId
  let lf2 := { lf with
    arr := fun i => if lf.size ≤ i ∧ i < lf.size + rt.size then rt.arr (i - lf.size) else lf.arr i,
    size := lf.size + rt.size }
  (t.setPage leftId lf2).setPage rightId { rt with size := 0 }

/-- The copy loop of `BPlusTreeInternalPage::Merge`: `i` is initialised to
`GetSize() + 1` after the size has already grown by one, so the right page's
remaining entries land starting two past the old size. -/
def internalMergeLoop (rt : BTPage) : Nat → BTPage → Nat → Nat → BTPage
  | 0, p, _, _ => p
  | fuel + 1, p, i, j =>
    if j < rt.size then
      internalMergeLoop rt fuel
        { p with arr := updSlot p.arr i (rt.arr j), size := p.size + 1 } (i + 1) (j + 1)
    else p

/-- Method `BPlusTreeInternalPage::Merge(key, right_page, bpm)`: snapshot the
size, store `(key, right.ValueAt(0))` at the old end and grow, run the copy
loop (with its off-by-one start), then rewrite the parent of every child
recorded between the old and the new size — reading the value slots of the
merged page, including the stale slot the gap left behind. -/
def BTree.internalMerge (t : BTree) (leftId : Int) (key : Int) (rightId : Int) : BTree :=
  let p := t.pages leftId
  let rt := t.pages rightId
  let size0 := p.size
  let p1 := { p with arr := updSlot p.arr p.size (key, (rt.arr 0).2), size := p.size + 1 }
  let p2 := internalMergeLoop rt rt.size p1 (p1.size + 1) 1
  let t1 := t.setPage leftId p2
  (List.range (p2.size - size0)).foldl
    (fun st j =>
      let cid := ((st.pages leftId).arr (size0 + j)).2
      st.setPage cid { st.pages cid with parent := leftId }) t1

/-- A forward index iterator (`index_iterator.cpp`): the pinned page
(`curr_page_`, `none` for a default-constructed iterator holding no page),
the remembered page id and the offset. -/
structure IndexIter where
  pageId : Int
  currPage : Option Int
  index : Nat
deriving Repr, DecidableEq

def IndexIter.defaultIter : IndexIter := ⟨0, none, 0⟩

/-- Method `BPlusTree::Begin()`: the source is a stub returning a
default-constructed iterator, ignoring the tree. -/
def BTree.beginIter (_ : BTree) : IndexIter := IndexIter.defaultIter

/-- Method `BPlusTree::End()`: likewise a stub. -/
def BTree.endIter (_ : BTree) : IndexIter := IndexIter.defaultIter

/-- Method `BPlusTree::GetRootPageId`: a stub returning 0. -/
def BTree.getRootPageId (_ : BTree) : Int := 0

/-- Dereference `IndexIterator::operator*`: the pair at the current offset of
the pinned leaf; a default-constructed iterator pins no leaf, so there is no
pair to return (the C++ dereferences an uninitialised pointer there). -/
def IndexIter.deref (it : IndexIter) (t : BTree) : Option (Int × Int) :=
  match it.currPage with
  | none => none
  | some pid => some ((t.pages pid).arr it.index)

/-- Scenario run for C1 (leaf_max_size 3, internal_max_size 3): insert keys
10, 20, 30, 40, 5 with values equal to the keys.  This reaches a height-2
tree whose internal root is full and whose leftmost leaf holds two keys. -/
def btreeC1Base : BTree :=
  (((((BTree.emptyTree 3 3).insertKV 10 10 20).2.insertKV 20 20 20).2.insertKV
      30 30 20).2.insertKV 40 40 20).2.insertKV 5 5 20 |>.2

/-- The C1 run continued by inserting key 3: the leftmost leaf splits with
key 3 staying in the left half, and the full parent splits, pushing up its
zeroed slot-0 key. -/
def btreeC1After : BTree := (btreeC1Base.insertKV 3 3 20).2

/-- Scenario run for C9: keys 1..10 in ascending order, leaf_max_size 3 and
internal_max_size 3 (the spec's split-cascade tree). -/
def btreeTen : BTree :=
  (List.range 10).foldl (fun t k => (t.insertKV (k + 1) (k + 1) 30).2) (BTree.emptyTree 3 3)

/-- Concrete pages for C7: page 1 is a left internal page
`[(·,100), (10,101)]` (size 2), page 2 a right internal page
`[(·,102), (30,103)]` (size 2); children 100, 101 have parent 1 and children
102, 103 have parent 2.  The separator key handed down from the parent is
20. -/
def btreeMergeDemo : BTree :=
  let mk := fun (parent : Int) => { BTPage.zero with pageType := 1, parent := parent, maxSize := 3 }
  let left := { BTPage.zero with
    pageType := 2, maxSize := 3, size := 2,
    arr := fun i => if i = 0 then (0, 100) else if i = 1 then (10, 101) else (0, 0) }
  let right := { BTPage.zero with
    pageType := 2, maxSize := 3, size := 2,
    arr := fun i => if i = 0 then (0, 102) else if i = 1 then (30, 103) else (0, 0) }
  (((((((BTree.emptyTree 3 3).setPage 1 left).setPage 2 right).setPage
      100 (mk 1)).setPage 101 (mk 1)).setPage 102 (mk 2)).setPage 103 (mk 2))

/-- The C7 merge of page 2 into page 1 with separator 20. -/
def btreeMergeResult : BTree := btreeMergeDemo.internalMerge 1 20 2

lemma judge_eq_true_iff {k : Nat} {a b : FrameRec}
    (ha : a.time.length ≤ k) (hb : b.time.length ≤ k) :
    judge k a b = true ↔ ltRec k a b := by
  unfold judge ltRec cls frontTs
  rcases Nat.lt_or_ge a.time.length k with h1 | h1 <;>
    rcases Nat.lt_or_ge b.time.length k with h2 | h2
  · have e1 : ¬(a.time.length < k ∧ b.time.length = k) := fun h => absurd h.2 (by omega)
    have e2 : ¬(a.time.length = k ∧ b.time.length < k) := fun h => absurd h.1 (by omega)
    rw [if_neg e1, if_neg e2, if_pos h1, if_pos h2, decide_eq_true_eq]
    omega
  · have hb2 : b.time.length = k := le_antisymm hb h2
    have e3 : ¬ b.time.length < k := by omega
    rw [if_pos ⟨h1, hb2⟩, if_pos h1, if_neg e3]
    simp
  · have ha2 : a.time.length = k := le_antisymm ha h1
    have e1 : ¬(a.time.length < k ∧ b.time.length = k) := fun h => absurd h.1 (by omega)
    have e3 : ¬ a.time.length < k := by omega
    rw [if_neg e1, if_pos ⟨ha2, h2⟩, if_neg e3, if_pos h2]
    simp
  · have e1 : ¬(a.time.length < k ∧ b.time.length = k) := fun h => absurd h.1 (by omega)
    have e2 : ¬(a.time.length = k ∧ b.time.length < k) := fun h => absurd h.2 (by omega)
    have e3 : ¬ a.time.length < k := by omega
    have e4 : ¬ b.time.length < k := by omega
    rw [if_neg e1, if_neg e2, if_neg e3, if_neg e4, decide_eq_true_eq]
    omega

lemma ltRec_trans {k : Nat} {a b c : FrameRec} :
    ltRec k a b → ltRec k b c → ltRec k a c := by
  unfold ltRec; omega

lemma ltRec_total {k : Nat} {a b : FrameRec} (h : frontTs a ≠ frontTs b) :
    ltRec k a b ∨ ltRec k b a := by
  unfold ltRec; omega

lemma ltRec_iff_preferred {k : Nat} {a b : FrameRec}
    (ha : a.time.length ≤ k) (hb : b.time.length ≤ k) :
    ltRec k a b ↔ preferredOver k a b := by
  unfold ltRec preferredOver cls
  rcases Nat.lt_or_ge a.time.length k with h1 | h1 <;>
    rcases Nat.lt_or_ge b.time.length k with h2 | h2
  · rw [if_pos h1, if_pos h2]; omega
  · rw [if_pos h1, if_neg (by omega : ¬ b.time.length < k)]; omega
  · rw [if_neg (by omega : ¬ a.time.length < k), if_pos h2]; omega
  · rw [if_neg (by omega : ¬ a.time.length < k), if_neg (by omega : ¬ b.time.length < k)]; omega

lemma evictPick_isSome (k : Nat) (l : List (Nat × FrameRec)) :
    ∀ acc : Option (Nat × FrameRec),
      (acc ≠ none ∨ ∃ p ∈ l, p.2.evictable = true) → evictPick k l acc ≠ none := by
  induction l with
  | nil =>
    intro acc h
    rcases h with h | ⟨p, hp, _⟩
    · simpa [evictPick] using h
    · cases hp
  | cons e t ih =>
    obtain ⟨f, r⟩ := e
    intro acc h
    by_cases hre : r.evictable = true
    · cases acc with
      | none => simpa [evictPick, hre] using ih _ (Or.inl (by simp))
      | some a =>
        obtain ⟨g, q⟩ := a
        by_cases hj : judge k r q = true <;>
          simpa [evictPick, hre, hj] using ih _ (Or.inl (by simp))
    · have hre2 : r.evictable = false := by
        cases hr2 : r.evictable
        · rfl
        · exact absurd hr2 hre
      have : acc ≠ none ∨ ∃ p ∈ t, p.2.evictable = true := by
        rcases h with h | ⟨p, hp, hpe⟩
        · exact Or.inl h
        · rcases List.mem_cons.mp hp with rfl | hp2
          · exact absurd hpe hre
          · exact Or.inr ⟨p, hp2, hpe⟩
      simpa [evictPick, hre2] using ih _ this

lemma evictPick_spec (k : Nat) (l : List (Nat × FrameRec)) :
    ∀ acc : Option (Nat × FrameRec),
      (∀ p ∈ l, p.2.time.length ≤ k) →
      (∀ a, acc = some a → a.2.time.length ≤ k ∧ a.2.evictable = true) →
      (acc.toList ++ l).Pairwise (fun p q => frontTs p.2 ≠ frontTs q.2) →
      ∀ m, evictPick k l acc = some m →
        ((m ∈ l ∧ m.2.evictable = true) ∨ acc = some m) ∧
        ∀ q ∈ acc.toList ++ l, q.2.evictable = true → q ≠ m → ltRec k m.2 q.2 := by
  induction l with
  | nil =>
    intro acc _ _ _ m hm
    have hacc : acc = some m := by simpa [evictPick] using hm
    refine ⟨Or.inr hacc, ?_⟩
    intro q hq _ hqm
    subst hacc
    simp at hq
    exact absurd hq hqm
  | cons e t ih =>
    obtain ⟨f, r⟩ := e
    intro acc hg hga hpw m hm
    by_cases hre : r.evictable = true
    · cases acc with
      | none =>
        have hm2 : evictPick k t (some (f, r)) = some m := by
          simpa [evictPick, hre] using hm
        have hpw2 : ((some (f, r)).toList ++ t).Pairwise
            (fun p q => frontTs p.2 ≠ frontTs q.2) := by simpa using hpw
        have res := ih (some (f, r)) (fun p hp => hg p (List.mem_cons_of_mem _ hp))
          (fun a ha => by
            cases ha
            exact ⟨hg (f, r) (List.mem_cons_self _ _), hre⟩) hpw2 m hm2
        refine ⟨?_, ?_⟩
        · rcases res.1 with ⟨hmt, hme⟩ | hacc
          · exact Or.inl ⟨List.mem_cons_of_mem _ hmt, hme⟩
          · cases hacc
            exact Or.inl ⟨(List.mem_cons_self _ _), hre⟩
        · intro q hq hqe hqm
          exact res.2 q (by simpa using hq) hqe hqm
      | some a =>
        obtain ⟨g, q0⟩ := a
        have hq0k : q0.time.length ≤ k := (hga (g, q0) rfl).1
        have hq0e : q0.evictable = true := (hga (g, q0) rfl).2
        have hrk : r.time.length ≤ k := hg (f, r) (List.mem_cons_self _ _)
        have hpwc := List.pairwise_cons.mp hpw
        have hfr_q0 : frontTs q0 ≠ frontTs r := hpwc.1 (f, r) (by simp)
        by_cases hj : judge k r q0 = true
        · -- the new candidate wins; recurse with acc = (f, r)
          have hlt : ltRec k r q0 := (judge_eq_true_iff hrk hq0k).mp hj
          have hm2 : evictPick k t (some (f, r)) = some m := by
            simpa [evictPick, hre, hj] using hm
          have hpw2 : ((some (f, r)).toList ++ t).Pairwise
              (fun p q => frontTs p.2 ≠ frontTs q.2) := by
            simpa using hpwc.2
          have res := ih (some (f, r)) (fun p hp => hg p (List.mem_cons_of_mem _ hp))
            (fun a ha => by cases ha; exact ⟨hrk, hre⟩) hpw2 m hm2
          have hm_mem : (m ∈ (f, r) :: t ∧ m.2.evictable = true) := by
            rcases res.1 with ⟨hmt, hme⟩ | hacc
            · exact ⟨List.mem_cons_of_mem _ hmt, hme⟩
            · cases hacc
              exact ⟨(List.mem_cons_self _ _), hre⟩
          have hm_beats_r : m = (f, r) ∨ ltRec k m.2 r := by
            rcases res.1 with ⟨hmt, _⟩ | hacc
            · refine Or.inr (res.2 (f, r) (by simp) hre ?_)
              intro hfm
              have := (List.pairwise_cons.mp hpwc.2).1 m hmt
              rw [hfm] at this
              exact this rfl
            · cases hacc
              exact Or.inl rfl
          refine ⟨Or.inl hm_mem, ?_⟩
          intro q hq hqe hqm
          rcases List.mem_cons.mp hq with rfl | hq2
          · -- q is the dethroned accumulator (g, q0)
            rcases hm_beats_r with rfl | hmr
            · exact hlt
            · exact ltRec_trans hmr hlt
          · exact res.2 q (by simpa using hq2) hqe hqm
        · -- the accumulator survives the comparison with (f, r)
          have hnlt : ¬ ltRec k r q0 := fun hc =>
            hj ((judge_eq_true_iff hrk hq0k).mpr hc)
          have hlt : ltRec k q0 r := by
            rcases ltRec_total (k := k) (Ne.symm hfr_q0) with h | h
            · exact absurd h hnlt
            · exact h
          have hm2 : evictPick k t (some (g, q0)) = some m := by
            simpa [evictPick, hre, hj] using hm
          have hpw2 : ((some (g, q0)).toList ++ t).Pairwise
              (fun p q => frontTs p.2 ≠ frontTs q.2) := by
            simp only [Option.toList_some, List.singleton_append]
            exact List.pairwise_cons.mpr
              ⟨fun b hb => hpwc.1 b (List.mem_cons_of_mem _ hb),
               (List.pairwise_cons.mp hpwc.2).2⟩
          have res := ih (some (g, q0)) (fun p hp => hg p (List.mem_cons_of_mem _ hp))
            (fun a ha => by cases ha; exact ⟨hq0k, hq0e⟩) hpw2 m hm2
          have hm_beats_q0 : m = (g, q0) ∨ ltRec k m.2 q0 := by
            rcases res.1 with ⟨hmt, _⟩ | hacc
            · refine Or.inr (res.2 (g, q0) (by simp) hq0e ?_)
              intro hgm
              have := hpwc.1 m (by simp [hmt])
              rw [hgm] at this
              exact this rfl
            · cases hacc
              exact Or.inl rfl
          refine ⟨?_, ?_⟩
          · rcases res.1 with ⟨hmt, hme⟩ | hacc
            · exact Or.inl ⟨List.mem_cons_of_mem _ hmt, hme⟩
            · exact Or.inr hacc
          · intro q hq hqe hqm
            have hq3 : q = (g, q0) ∨ q = (f, r) ∨ q ∈ t := by
              simpa [List.mem_cons] using hq
            rcases hq3 with rfl | rfl | hq4
            · exact res.2 (g, q0) (by simp) hqe hqm
            · rcases hm_beats_q0 with rfl | hmq
              · exact hlt
              · exact ltRec_trans hmq hlt
            · exact res.2 q (by simp [hq4]) hqe hqm
    · have hre2 : r.evictable = false := by
        cases hr2 : r.evictable
        · rfl
        · exact absurd hr2 hre
      have hm2 : evictPick k t acc = some m := by
        simpa [evictPick, hre2] using hm
      have hpw2 : (acc.toList ++ t).Pairwise (fun p q => frontTs p.2 ≠ frontTs q.2) :=
        hpw.sublist ((List.sublist_cons_self _ _).append_left _)
      have res := ih acc (fun p hp => hg p (List.mem_cons_of_mem _ hp)) hga hpw2 m hm2
      refine ⟨?_, ?_⟩
      · rcases res.1 with ⟨hmt, hme⟩ | hacc
        · exact Or.inl ⟨List.mem_cons_of_mem _ hmt, hme⟩
        · exact Or.inr hacc
      · intro q hq hqe hqm
        have hq3 : q ∈ acc.toList ∨ q = (f, r) ∨ q ∈ t := by
          simpa [List.mem_append, List.mem_cons] using hq
        rcases hq3 with hq4 | rfl | hq4
        · exact res.2 q (List.mem_append.mpr (Or.inl hq4)) hqe hqm
        · rw [hqe] at hre2
          cases hre2
        · exact res.2 q (List.mem_append.mpr (Or.inr hq4)) hqe hqm

lemma recOf_mem {h : List (Nat × FrameRec)} {f : Nat} {r : FrameRec}
    (hr : recOf h f = some r) : (f, r) ∈ h := by
  induction h with
  | nil => cases hr
  | cons e t ih =>
    obtain ⟨g, q⟩ := e
    by_cases hg : g = f
    · subst hg
      simp only [recOf, eq_self_iff_true, if_true, Option.some.injEq] at hr
      subst hr
      exact List.mem_cons_self _ _
    · simp only [recOf, if_neg hg] at hr
      exact List.mem_cons_of_mem _ (ih hr)

lemma mem_setRec {h : List (Nat × FrameRec)} {f : Nat} {r : FrameRec} {p : Nat × FrameRec}
    (hp : p ∈ setRec h f r) : p = (f, r) ∨ p ∈ h := by
  induction h with
  | nil => simpa [setRec] using hp
  | cons e t ih =>
    obtain ⟨g, q⟩ := e
    by_cases hg : g = f
    · rw [setRec, if_pos hg] at hp
      rcases List.mem_cons.mp hp with rfl | hp2
      · exact Or.inl rfl
      · exact Or.inr (List.mem_cons_of_mem _ hp2)
    · rw [setRec, if_neg hg] at hp
      rcases List.mem_cons.mp hp with rfl | hp2
      · exact Or.inr (List.mem_cons_self _ _)
      · rcases ih hp2 with h2 | h2
        · exact Or.inl h2
        · exact Or.inr (List.mem_cons_of_mem _ h2)

lemma keys_setRec {h : List (Nat × FrameRec)} {f : Nat} {r : FrameRec} (x : Nat)
    (hx : x ∈ (setRec h f r).map Prod.fst) : x = f ∨ x ∈ h.map Prod.fst := by
  simp only [List.mem_map] at hx
  obtain ⟨p, hp, hpx⟩ := hx
  rcases mem_setRec hp with rfl | hp2
  · exact Or.inl hpx.symm
  · exact Or.inr (List.mem_map.mpr ⟨p, hp2, hpx⟩)

lemma nodup_keys_setRec {h : List (Nat × FrameRec)} {f : Nat} {r : FrameRec}
    (hnd : (h.map Prod.fst).Nodup) : ((setRec h f r).map Prod.fst).Nodup := by
  induction h with
  | nil => simp [setRec]
  | cons e t ih =>
    obtain ⟨g, q⟩ := e
    simp only [List.map_cons, List.nodup_cons] at hnd
    by_cases hg : g = f
    · subst hg
      rw [setRec, if_pos rfl]
      simp only [List.map_cons, List.nodup_cons]
      exact ⟨hnd.1, hnd.2⟩
    · rw [setRec, if_neg hg]
      simp only [List.map_cons, List.nodup_cons]
      refine ⟨?_, ih hnd.2⟩
      intro hgmem
      rcases keys_setRec g hgmem with rfl | h2
      · exact hg rfl
      · exact hnd.1 h2

lemma eraseRec_sublist (h : List (Nat × FrameRec)) (f : Nat) : List.Sublist (eraseRec h f) h := by
  induction h with
  | nil => simp [eraseRec]
  | cons e t ih =>
    obtain ⟨g, q⟩ := e
    by_cases hg : g = f
    · rw [eraseRec, if_pos hg]
      exact List.sublist_cons_self (g, q) t
    · rw [eraseRec, if_neg hg]
      exact ih.cons₂ (g, q)

lemma TDisj_symm {p q : Nat × FrameRec} (h : TDisj p q) : TDisj q p :=
  fun x hx hx2 => h x hx2 hx

lemma pairwise_TDisj_of_mem {h : List (Nat × FrameRec)}
    (hpw : h.Pairwise TDisj) {p q : Nat × FrameRec}
    (hp : p ∈ h) (hq : q ∈ h) (hne : p ≠ q) : TDisj p q :=
  List.Pairwise.forall (fun _ _ hab => TDisj_symm hab) hpw hp hq hne

lemma pairwise_setRec {h : List (Nat × FrameRec)} {f : Nat} {r : FrameRec}
    (hnd : (h.map Prod.fst).Nodup) (hpw : h.Pairwise TDisj)
    (hnew : ∀ q ∈ h, q.1 ≠ f → TDisj (f, r) q) :
    (setRec h f r).Pairwise TDisj := by
  induction h with
  | nil => simp [setRec, TDisj]
  | cons e t ih =>
    obtain ⟨g, q0⟩ := e
    simp only [List.map_cons, List.nodup_cons] at hnd
    rw [List.pairwise_cons] at hpw
    by_cases hg : g = f
    · subst hg
      rw [setRec, if_pos rfl, List.pairwise_cons]
      refine ⟨?_, hpw.2⟩
      intro p hp
      have hpf : p.1 ≠ g := by
        intro he
        exact hnd.1 (he ▸ List.mem_map_of_mem Prod.fst hp)
      exact hnew p (List.mem_cons_of_mem _ hp) hpf
    · rw [setRec, if_neg hg, List.pairwise_cons]
      refine ⟨?_, ih hnd.2 hpw.2 (fun p hp hpf => hnew p (List.mem_cons_of_mem _ hp) hpf)⟩
      intro p hp
      rcases mem_setRec hp with rfl | hp2
      · exact TDisj_symm (hnew (g, q0) (List.mem_cons_self _ _) hg)
      · exact hpw.1 p hp2

lemma inv_eraseRec {s : LRUK} (hinv : s.Inv) (f : Nat) (cs : Nat) :
    ({ s with hash := eraseRec s.hash f, currSize := cs } : LRUK).Inv := by
  refine ⟨?_, ?_, ?_⟩
  · intro p hp
    exact hinv.recs p ((eraseRec_sublist s.hash f).subset hp)
  · exact hinv.disj.sublist (eraseRec_sublist s.hash f)
  · exact hinv.keys.sublist ((eraseRec_sublist s.hash f).map Prod.fst)

lemma inv_recordAccess {s : LRUK} (hk : 1 ≤ s.k) (hinv : s.Inv) (f : Nat) :
    (s.recordAccess f).Inv := by
  unfold LRUK.recordAccess
  by_cases hguard : s.numFrames = s.hash.length ∧ recOf s.hash f = none
  · rw [if_pos hguard]; exact hinv
  · rw [if_neg hguard]
    simp only
    set r := (recOf s.hash f).getD ⟨[], false⟩ with hrdef
    set t0 := if r.time.length = s.k then r.time.tail else r.time with ht0
    have hrfacts : r.time.length ≤ s.k ∧ r.time.Sorted (· < ·) ∧
        (∀ x ∈ r.time, x < s.clock) ∧ (r.time ≠ [] → (f, r) ∈ s.hash) := by
      cases hro : recOf s.hash f with
      | none =>
        refine ⟨?_, ?_, ?_, ?_⟩ <;> simp [hrdef, hro]
      | some r2 =>
        have hmem := recOf_mem hro
        have hprops := hinv.recs _ hmem
        rw [hrdef, hro]
        exact ⟨hprops.2.1, hprops.2.2.1, hprops.2.2.2, fun _ => hmem⟩
    have hsub : ∀ x ∈ t0, x ∈ r.time := by
      intro x hx
      rw [ht0] at hx
      split at hx
      · exact (List.tail_sublist _).subset hx
      · exact hx
    have hlen : t0.length + 1 ≤ s.k := by
      rw [ht0]
      split
      · rename_i hfull
        simp [List.length_tail, hfull]
        omega
      · rename_i hnot
        have := hrfacts.1
        omega
    have hsort : t0.Sorted (· < ·) := by
      rw [ht0]
      split
      · exact hrfacts.2.1.sublist (List.tail_sublist _)
      · exact hrfacts.2.1
    have hbound : ∀ x ∈ t0, x < s.clock := fun x hx => hrfacts.2.2.1 x (hsub x hx)
    refine ⟨?_, ?_, ?_⟩
    · intro p hp
      rcases mem_setRec hp with rfl | hp2
      · refine ⟨by simp, ?_, ?_, ?_⟩
        · simpa using hlen
        · refine List.pairwise_append.mpr ⟨hsort, List.pairwise_singleton _ _, ?_⟩
          intro a ha b hb
          rw [List.mem_singleton] at hb
          subst hb
          exact hbound a ha
        · intro x hx
          rcases List.mem_append.mp hx with hx2 | hx2
          · exact Nat.lt_succ_of_lt (hbound x hx2)
          · rw [List.mem_singleton] at hx2
            subst hx2
            exact Nat.lt_succ_self _
      · have := hinv.recs p hp2
        exact ⟨this.1, this.2.1, this.2.2.1, fun x hx => Nat.lt_succ_of_lt (this.2.2.2 x hx)⟩
    · refine pairwise_setRec hinv.keys hinv.disj ?_
      intro q hq hqf
      intro x hx hxq
      have hqclock := (hinv.recs q hq).2.2.2 x hxq
      rcases List.mem_append.mp hx with hx2 | hx2
      · have hxr : x ∈ r.time := hsub x hx2
        have hrne : r.time ≠ [] := fun he => by rw [he] at hxr; cases hxr
        have hfr_mem := hrfacts.2.2.2 hrne
        have hpq : (f, r) ≠ q := fun he => hqf (congrArg Prod.fst he).symm
        exact pairwise_TDisj_of_mem hinv.disj hfr_mem hq hpq x hxr hxq
      · rw [List.mem_singleton] at hx2
        subst hx2
        exact absurd hqclock (Nat.lt_irrefl _)
    · exact nodup_keys_setRec hinv.keys

lemma inv_setEvictable {s : LRUK} (hinv : s.Inv) (f : Nat) (b : Bool) :
    (s.setEvictable f b).Inv := by
  unfold LRUK.setEvictable
  cases hro : recOf s.hash f with
  | none => exact hinv
  | some r =>
    simp only
    have hmem := recOf_mem hro
    have hprops := hinv.recs _ hmem
    refine ⟨?_, ?_, ?_⟩
    · intro p hp
      rcases mem_setRec hp with rfl | hp2
      · exact hprops
      · exact hinv.recs p hp2
    · refine pairwise_setRec hinv.keys hinv.disj ?_
      intro q hq hqf
      have hpq : (f, r) ≠ q := fun he => hqf (congrArg Prod.fst he).symm
      exact pairwise_TDisj_of_mem (p := (f, r)) hinv.disj hmem hq hpq
    · exact nodup_keys_setRec hinv.keys

lemma inv_evict {s : LRUK} (hinv : s.Inv) : (s.evict).2.Inv := by
  unfold LRUK.evict
  cases hpick : evictPick s.k s.hash none with
  | none => exact hinv
  | some m =>
    obtain ⟨f, r⟩ := m
    exact inv_eraseRec hinv f _

lemma inv_removeFrame {s s2 : LRUK} {f : Nat} (hok : s.removeFrame f = Except.ok s2)
    (hinv : s.Inv) : s2.Inv := by
  unfold LRUK.removeFrame at hok
  split at hok
  · cases hok
    exact hinv
  · split at hok
    · cases hok
    · cases hok
      exact inv_eraseRec hinv _ _

lemma k_recordAccess (s : LRUK) (f : Nat) : (s.recordAccess f).k = s.k := by
  unfold LRUK.recordAccess
  split <;> rfl

lemma k_setEvictable (s : LRUK) (f : Nat) (b : Bool) : (s.setEvictable f b).k = s.k := by
  unfold LRUK.setEvictable
  cases recOf s.hash f <;> rfl

lemma k_evict (s : LRUK) : (s.evict).2.k = s.k := by
  unfold LRUK.evict
  cases evictPick s.k s.hash none with
  | none => rfl
  | some m => obtain ⟨f, r⟩ := m; rfl

lemma k_removeFrame {s s2 : LRUK} {f : Nat} (hok : s.removeFrame f = Except.ok s2) :
    s2.k = s.k := by
  unfold LRUK.removeFrame at hok
  split at hok
  · cases hok
    rfl
  · split at hok
    · cases hok
    · cases hok
      rfl

lemma reach_inv {s : LRUK} (hre : LRUK.Reach s) : 1 ≤ s.k → s.Inv := by
  induction hre with
  | init n k =>
    intro _
    exact ⟨by simp [LRUK.init], by simp [LRUK.init], by simp [LRUK.init]⟩
  | record s f _ ih =>
    intro hk
    rw [k_recordAccess] at hk
    exact inv_recordAccess hk (ih hk) f
  | setEv s f b _ ih =>
    intro hk
    rw [k_setEvictable] at hk
    exact inv_setEvictable (ih hk) f b
  | evictStep s _ ih =>
    intro hk
    rw [k_evict] at hk
    exact inv_evict (ih hk)
  | removeStep s s2 f _ hok ih =>
    intro hk
    rw [k_removeFrame hok] at hk
    exact inv_removeFrame hok (ih hk)

lemma inv_fronts_pairwise {s : LRUK} (hinv : s.Inv) :
    s.hash.Pairwise (fun p q => frontTs p.2 ≠ frontTs q.2) := by
  refine hinv.disj.imp_of_mem ?_
  intro p q hp hq hdisj heq
  have hpne := (hinv.recs p hp).1
  have hqne := (hinv.recs q hq).1
  have hpf : frontTs p.2 ∈ p.2.time := by
    cases hpt : p.2.time with
    | nil => exact absurd hpt hpne
    | cons a l => simp [frontTs, hpt]
  have hqf : frontTs q.2 ∈ q.2.time := by
    cases hqt : q.2.time with
    | nil => exact absurd hqt hqne
    | cons a l => simp [frontTs, hqt]
  exact hdisj _ hpf (by rw [heq]; exact hqf)

/-- C6: whenever at least one frame is evictable, `Evict` succeeds, and the
frame it returns is an evictable frame beating every other evictable frame in
the LRU-K priority: a frame with fewer than `k` recorded accesses (infinite
backward k-distance) is preferred over any frame with `k` accesses; among
frames with fewer than `k` accesses the one with the smallest earliest
recorded timestamp wins; among frames with `k` accesses the one with the
smallest `k`-th most recent timestamp wins.  (`preferredOver` compares the
FIFO fronts; by `LRUK.Inv` the FIFO is chronologically sorted, so its front is
the earliest retained access, which for a full record of length `k` is the
`k`-th most recent access.)  Stated for any reachable replacer state with
`k ≥ 1`. -/
theorem c6_evict_selects_largest_backward_kdistance
    (s : LRUK) (hre : LRUK.Reach s) (hk : 1 ≤ s.k)
    (f0 : Nat) (r0 : FrameRec) (hmem : (f0, r0) ∈ s.hash) (hev : r0.evictable = true) :
    ∃ f r s2, s.evict = (some f, s2) ∧ (f, r) ∈ s.hash ∧ r.evictable = true ∧
      ∀ g q, (g, q) ∈ s.hash → q.evictable = true → g ≠ f → preferredOver s.k r q := by
  have hinv := reach_inv hre hk
  have hpw := inv_fronts_pairwise hinv
  have hns := evictPick_isSome s.k s.hash none (Or.inr ⟨(f0, r0), hmem, hev⟩)
  obtain ⟨m, hm⟩ := Option.ne_none_iff_exists'.mp hns
  obtain ⟨mf, mr⟩ := m
  have hspec := evictPick_spec s.k s.hash none
    (fun p hp => (hinv.recs p hp).2.1) (fun a ha => by cases ha)
    (by simpa using hpw) (mf, mr) hm
  have hmm : (mf, mr) ∈ s.hash ∧ mr.evictable = true := by
    rcases hspec.1 with h | h
    · exact h
    · cases h
  refine ⟨mf, mr, { s with hash := eraseRec s.hash mf, currSize := s.currSize - 1 },
    ?_, hmm.1, hmm.2, ?_⟩
  · unfold LRUK.evict
    rw [hm]
  · intro g q hgq hqe hgf
    have hne : (g, q) ≠ (mf, mr) := fun he => hgf (congrArg Prod.fst he)
    have hlt := hspec.2 (g, q) (by simpa using hgq) hqe hne
    exact (ltRec_iff_preferred (hinv.recs _ hmm.1).2.1 (hinv.recs _ hgq).2.1).mp hlt

/-- Witness for C6: in the concrete run `lruDemo` (three frames, k = 2, frames
0 and 1 each accessed once and made evictable) the theorem applies and yields
the promised optimal victim. -/
theorem c6_evict_witness :
    ∃ f r s2, lruDemo.evict = (some f, s2) ∧ (f, r) ∈ lruDemo.hash ∧ r.evictable = true ∧
      ∀ g q, (g, q) ∈ lruDemo.hash → q.evictable = true → g ≠ f → preferredOver lruDemo.k r q :=
  c6_evict_selects_largest_backward_kdistance lruDemo
    (LRUK.Reach.setEv _ 1 true (LRUK.Reach.setEv _ 0 true
      (LRUK.Reach.record _ 1 (LRUK.Reach.record _ 0 (LRUK.Reach.init 3 2)))))
    (by decide) 0 ⟨[0], true⟩ (by decide) (by decide)

/-- C10: for a frame id not tracked by the replacer, `Remove` is a silent
no-op — it returns normally with the whole state (hence `Size()` and every
per-frame record) unchanged — and the precondition-violation abort of `Remove`
happens exactly when the frame is tracked and marked non-evictable. -/
theorem c10_remove_untracked_noop (s : LRUK) (f : Nat) :
    (recOf s.hash f = none → s.removeFrame f = Except.ok s) ∧
    ((∃ e, s.removeFrame f = Except.error e) ↔
      ∃ r, recOf s.hash f = some r ∧ r.evictable = false) := by
  constructor
  · intro h
    unfold LRUK.removeFrame
    rw [h]
  · unfold LRUK.removeFrame
    cases hro : recOf s.hash f with
    | none => simp
    | some r =>
      cases hrev : r.evictable with
      | false => simp [hrev]
      | true => simp [hrev]

/-- Witness for C10: removing the untracked frame 5 from a freshly built
replacer returns normally and leaves the state unchanged. -/
theorem c10_remove_witness :
    (LRUK.init 2 2).removeFrame 5 = Except.ok (LRUK.init 2 2) :=
  (c10_remove_untracked_noop (LRUK.init 2 2) 5).1 (by decide)

/-- C3 (counterexample evaluation): in `bpmFlushDemo` pages 0 and 1 are
resident in frames 0 and 1 and both frames are dirty.  `FlushPage(1)` returns
true and writes the bytes, as the claim states, but it leaves frame 1's dirty
flag set and clears frame 0's instead — `FlushPgImp` executes
`pages_->is_dirty_ = false`, touching frame 0 rather than the flushed frame,
so the claim that the flushed frame's own dirty flag is cleared is false on
the code. -/
theorem c3_flush_clears_wrong_frame :
    (bpmFlushDemo.flushPg 1).1 = true
    ∧ ((bpmFlushDemo.flushPg 1).2.frames 1).isDirty = true
    ∧ ((bpmFlushDemo.flushPg 1).2.frames 0).isDirty = false
    ∧ (bpmFlushDemo.frames 1).isDirty = true
    ∧ (bpmFlushDemo.frames 0).isDirty = true := by decide

/-- C4 (counterexample evaluation): in `bpmDeleteDemo` page 0 is resident and
pinned (pin count 1).  `DeletePage(0)` returns false, as the claim states, but
it does not leave the state unchanged: `DeletePgImp` calls `DeallocatePage(0)`
before any residency or pin check, so the page id is freed on disk even though
the removal fails. -/
theorem c4_delete_deallocates_pinned :
    (bpmDeleteDemo.deletePg 0).map Prod.fst = some false
    ∧ (bpmDeleteDemo.deletePg 0).map (fun x => x.2.dealloc) = some [0]
    ∧ bpmDeleteDemo.dealloc = [] := by decide

/-- C8 (counterexample evaluation): in `bpmXorDemo` page 0 is resident in
frame 0 and unpinned.  `DeletePage(0)` succeeds, yet afterwards frame 0 is in
the free list AND the page table still maps page 0 to frame 0 —
`DeletePgImp` never removes the page-table entry, so the free-list-XOR-mapped
invariant is violated in a reachable state. -/
theorem c8_delete_leaves_stale_mapping :
    (bpmXorDemo.deletePg 0).map Prod.fst = some true
    ∧ 0 ∈ bpmAfterDelete.freeList
    ∧ ptFind bpmAfterDelete.pageTable 0 = some 0 := by decide

/-- C2 (counterexample evaluation): with bucket_size 2, after inserting
(1,7), (5,7) and (9,7) — keys agreeing on the low bit — Find(5) returns false
(so does Find(1)), and the global depth stops at 1 instead of reaching 2.
`RedistributeBucket` masks each item's hash with the same `depth-1` low bits
it uses for the old pattern `preidx`, so the comparison `idx != preidx` never
fires and no item moves to the sibling bucket: after the split, directory
slot 1 names the fresh empty sibling while keys 1 and 5 stay in the old
bucket, reachable only through slot 0 which their hashes no longer select. -/
theorem c2_split_loses_keys :
    (ehtDemo.findT 5 0).1 = false
    ∧ (ehtDemo.findT 1 0).1 = false
    ∧ ehtDemo.globalDepth = 1 := by decide

/-- C5 (counterexample evaluation): with (1,10) stored, Find(1, out) on a
caller variable holding 99 returns true but leaves the variable at 99 instead
of the stored 10, and it overwrites the stored value with 99 —
`Bucket::Find` executes `(*it).second = value;`, the assignment written
backwards — so Find is not read-only and does not deliver the stored
value. -/
theorem c5_find_overwrites_stored_value :
    (ehtFindDemo.findT 1 99).1 = true
    ∧ (ehtFindDemo.findT 1 99).2.1 = 99
    ∧ (((ehtFindDemo.findT 1 99).2.2.buckets.getD 0 ⟨[], 0, 0⟩).list = [(1, 99)])
    ∧ ((ehtFindDemo.buckets.getD 0 ⟨[], 0, 0⟩).list = [(1, 10)]) := by decide

/-- C1 (counterexample evaluation): with leaf_max_size 3 and
internal_max_size 3, after inserting keys 10, 20, 30, 40, 5 (each lookup
then still succeeds, e.g. GetValue(5) = 5), the next call Insert(3, 3)
returns true — yet GetValue(3) immediately afterwards returns nothing.  The
insert splits the leftmost leaf with key 3 staying in the left half and
cascades into a split of the full internal root; `InsertInParent` then
pushes up `parent_page_node->KeyAt(0)` — the unused, zeroed slot-0 key of
the just-split parent — instead of the new sibling's first key, so the new
root separates the subtrees at key 0 and the left subtree (holding 3)
becomes unreachable for search.  This refutes the round-trip
`Insert(k,v); GetValue(k) = {v}` for a successful insert. -/
theorem c1_insert_roundtrip_fails :
    (btreeC1Base.insertKV 3 3 20).1 = true
    ∧ btreeC1After.getValue 3 20 = none
    ∧ btreeC1Base.getValue 5 20 = some 5
    ∧ btreeC1Base.getValue 3 20 = none := by decide

/-- C7 (counterexample evaluation): merging the right internal page
`[(·, 102), (30, 103)]` into the left internal page `[(·, 100), (10, 101)]`
with separator 20 should contiguously produce
`[(·, 100), (10, 101), (20, 102), (30, 103)]` with children 102 and 103
reparented to the left page.  Instead the copy loop of
`BPlusTreeInternalPage::Merge` starts at `GetSize() + 1` after the size has
already grown, so the recorded entries are
`[(·, 100), (10, 101), (20, 102), stale]`: slot 3 still holds the zeroed
stale pair, the moved entry (30, 103) sits at slot 4 outside the recorded
size 4, and child 103 keeps its old parent while the stale slot's value 0 is
reparented in its stead. -/
theorem c7_internal_merge_gap :
    (btreeMergeResult.pages 1).size = 4
    ∧ (btreeMergeResult.pages 1).arr 2 = (20, 102)
    ∧ (btreeMergeResult.pages 1).arr 3 = (0, 0)
    ∧ (btreeMergeResult.pages 1).arr 4 = (30, 103)
    ∧ (btreeMergeResult.pages 102).parent = 1
    ∧ (btreeMergeResult.pages 103).parent = 2 := by decide

/-- C9 (counterexample evaluation): after inserting keys 1..10 into a tree
with leaf_max_size 3 and internal_max_size 3, `Begin()` and `End()` are
stubs returning default-constructed iterators: they are equal, so the scan
from `Begin()` to `End()` visits nothing, and dereferencing `Begin()` yields
no key/value pair (its `curr_page_` holds no pinned leaf) — instead of
yielding the keys 1..10 in ascending order.  `GetRootPageId` likewise
returns the constant 0.  (Independently, the scenario's premise is already
broken on this tree: GetValue(1) returns nothing after the ten inserts, by
the C1 defect.) -/
theorem c9_begin_end_stubbed :
    btreeTen.beginIter = btreeTen.endIter
    ∧ (btreeTen.beginIter).deref btreeTen = none
    ∧ btreeTen.getRootPageId = 0
    ∧ btreeTen.getValue 1 30 = none := by decide

end BusTub
